import Mathlib

/-!
Verification of the member-store and sort-engine core of H5Tfields.c
(field handling for compound and enumerated datatypes).

The C data structures are shallowly embedded:

- C strings (member names) become lists of bytes (Nat), the bytes before
  the NUL terminator; HDstrcmp becomes the function strcmp below.
- The flat enum value buffer (dt.u.enumer.value, nmembs chunks of dt.size
  bytes each) becomes a list of per-member byte chunks; HDmemcmp on two
  chunks becomes the function memcmp below.
- The union dt.u with the class tag dt.type becomes the inductive H5T_u;
  the compound member array and the parallel enum name/value arrays keep
  their source names (memb, name, value, sorted).
- The in-place mutation of the descriptor and of the caller-supplied map
  array becomes explicit state passing: each sort returns the error status
  together with the new descriptor and the new map.
- The source asserts H5T_COMPOUND==dt.type || H5T_ENUM==dt.type at entry
  of both sorts; the assertion firing (before any mutation) is modelled
  as an UnsupportedKind failure that returns the state unchanged.
-/

/-- Sort state tag, mirroring H5T_sort_t in the source
(H5T_SORT_NONE, H5T_SORT_VALUE, H5T_SORT_NAME). -/
inductive H5T_sort_t where
  | SORT_NONE
  | SORT_VALUE
  | SORT_NAME
deriving DecidableEq

/-- One compound member, mirroring the fields of H5T_cmemb_t that this
module reads: the member name and its byte offset. The member is always
swapped as a whole struct, so the remaining fields ride along and are
omitted. -/
structure H5T_cmemb_t where
  name : List Nat
  offset : Nat
deriving DecidableEq

/-- The compound part of the union: member array and memoized sort state
(dt.u.compnd.memb, dt.u.compnd.sorted); nmembs is the length of memb. -/
structure H5T_compnd_t where
  memb : List H5T_cmemb_t
  sorted : H5T_sort_t
deriving DecidableEq

/-- The enum part of the union: parallel name and value arrays and the
memoized sort state (dt.u.enumer.name, dt.u.enumer.value,
dt.u.enumer.sorted); each value chunk has dt.size bytes. -/
structure H5T_enum_t where
  name : List (List Nat)
  value : List (List Nat)
  sorted : H5T_sort_t
deriving DecidableEq

/-- The tagged union dt.u together with the class tag dt.type: a
descriptor is a compound type, an enum type, or some other class
(H5T_INTEGER, H5T_FLOAT, ...) collapsed into the case other. -/
inductive H5T_u where
  | compnd (c : H5T_compnd_t)
  | enumer (e : H5T_enum_t)
  | other
deriving DecidableEq

/-- The datatype descriptor H5T_t, restricted to the fields this module
touches: the overall size (the enum value width) and the union. -/
structure H5T_t where
  size : Nat
  u : H5T_u
deriving DecidableEq

/-- Error taxonomy of this module: operation on a class that is neither
compound nor enum, and member number out of range. -/
inductive H5TError where
  | UnsupportedKind
  | InvalidIndex
deriving DecidableEq

/-- HDstrcmp on NUL-terminated byte strings, embedded on the byte lists
before the terminator: sign of the first differing byte pair, comparing
bytes as unsigned; a proper prefix is smaller because its terminator
byte 0 is below any name byte. -/
def strcmp : List Nat → List Nat → Int
  | [], [] => 0
  | [], _ :: _ => -1
  | _ :: _, [] => 1
  | a :: as, b :: bs =>
    if a < b then -1 else if b < a then 1 else strcmp as bs

/-- HDmemcmp on two byte buffers of the same length: sign of the first
differing byte, bytes compared as unsigned. -/
def memcmp : List Nat → List Nat → Int
  | a :: as, b :: bs =>
    if a < b then -1 else if b < a then 1 else memcmp as bs
  | _, _ => 0

/-- H5T_get_nmembers: number of members of a compound or enum type,
UnsupportedKind (the BADTYPE error of the source) otherwise. -/
def H5T_get_nmembers (dt : H5T_t) : Except H5TError Int :=
  match dt.u with
  | .compnd c => .ok (c.memb.length : Int)
  | .enumer e => .ok (e.name.length : Int)
  | .other => .error .UnsupportedKind

/-- H5T_get_member_name: the name at position membno, InvalidIndex (the
BADVALUE error of the source) when membno < 0 or membno >= nmembs,
UnsupportedKind for other classes. The source returns a fresh copy of the
string; copying is identity on the embedded byte list. -/
def H5T_get_member_name (dt : H5T_t) (membno : Int) : Except H5TError (List Nat) :=
  match dt.u with
  | .compnd c =>
    if membno < 0 ∨ (c.memb.length : Int) ≤ membno then .error .InvalidIndex
    else .ok (c.memb.getD membno.toNat { name := [], offset := 0 }).name
  | .enumer e =>
    if membno < 0 ∨ (e.name.length : Int) ≤ membno then .error .InvalidIndex
    else .ok (e.name.getD membno.toNat [])
  | .other => .error .UnsupportedKind

/-- The linear scan of H5Tget_member_index: first index (counting from
the accumulator i) whose name has strcmp zero against the key, or -1 when
the scan falls off the end. -/
def memberScan (names : List (List Nat)) (key : List Nat) (i : Int) : Int :=
  match names with
  | [] => -1
  | n :: rest => if strcmp n key = 0 then i else memberScan rest key (i + 1)

/-- H5Tget_member_index: linear scan over the members in current order;
ok (-1) is the not-found result (the FAIL return with no member lookup
error), UnsupportedKind for other classes. -/
def H5Tget_member_index (dt : H5T_t) (key : List Nat) : Except H5TError Int :=
  match dt.u with
  | .compnd c => .ok (memberScan (c.memb.map H5T_cmemb_t.name) key 0)
  | .enumer e => .ok (memberScan e.name key 0)
  | .other => .error .UnsupportedKind

/-- The body of one inner-loop pass, written structurally: a is the
element currently at slot j; each comparison either swaps (the held
element keeps bubbling right past b) or deposits it and continues with
b. The boolean reports whether any swap happened during the pass. -/
def bubblePass {α : Type} (gt : α → α → Bool) (a : α × Int) :
    List (α × Int) → List (α × Int) × Bool
  | [] => ([a], false)
  | b :: rest =>
    if gt a.1 b.1 then
      let r := bubblePass gt a rest
      (b :: r.1, true)
    else
      let r := bubblePass gt b rest
      (a :: r.1, r.2)

/-- One pass of the inner loop (j from 0 while j < i): compare adjacent
elements, swap when the comparison says the left is strictly greater, and
report whether any swap happened. Elements are paired with their entry of
the parallel map array, and a swap exchanges the pair as a unit, exactly
as the source swaps the member and map[j]/map[j+1] in lock-step. -/
def bubbleStep {α : Type} (gt : α → α → Bool) : List (α × Int) → List (α × Int) × Bool
  | [] => ([], false)
  | a :: rest => bubblePass gt a rest

/-- The outer loop (i from nmembs-1 while i > 0 and swapped): at Lean
level i+1 the pass covers the first i+2 elements (C outer index i+1,
inner loop j < i+1 touching slots 0..i+1); the loop exits when a pass
made no swap. -/
def bubbleSortAux {α : Type} (gt : α → α → Bool) : Nat → List (α × Int) → List (α × Int)
  | 0, l => l
  | i + 1, l =>
    let r := bubbleStep gt (l.take (i + 2))
    let l2 := r.1 ++ l.drop (i + 2)
    if r.2 then bubbleSortAux gt i l2 else l2

/-- The whole bubble sort: outer index starts at nmembs - 1. -/
def bubbleSort {α : Type} (gt : α → α → Bool) (l : List (α × Int)) : List (α × Int) :=
  bubbleSortAux gt (l.length - 1) l

/-- Run the bubble sort on the member list, threading the optional
caller-supplied map: when the map is absent the source skips the map
swaps, which is modelled by zipping with a throwaway constant column. -/
def sortWithMap {α : Type} (gt : α → α → Bool) (mem : List α) (map : Option (List Int)) :
    List α × Option (List Int) :=
  match map with
  | none =>
    ((bubbleSort gt (mem.zip (List.replicate mem.length 0))).map Prod.fst, none)
  | some m =>
    let r := bubbleSort gt (mem.zip m)
    (r.map Prod.fst, some (r.map Prod.snd))

/-- The strictly-greater test of the compound branch of H5T_sort_value:
memb[j].offset > memb[j+1].offset. -/
def cmembValueGt (a b : H5T_cmemb_t) : Bool :=
  decide (b.offset < a.offset)

/-- The strictly-greater test of the compound branch of H5T_sort_name:
HDstrcmp(memb[j].name, memb[j+1].name) > 0. -/
def cmembNameGt (a b : H5T_cmemb_t) : Bool :=
  decide (0 < strcmp a.name b.name)

/-- The strictly-greater test of the enum branch of H5T_sort_value on a
(name, value) pair: HDmemcmp(value+j*size, value+(j+1)*size, size) > 0. -/
def enumValueGt (a b : List Nat × List Nat) : Bool :=
  decide (0 < memcmp a.2 b.2)

/-- The strictly-greater test of the enum branch of H5T_sort_name on a
(name, value) pair: HDstrcmp(name[j], name[j+1]) > 0. -/
def enumNameGt (a b : List Nat × List Nat) : Bool :=
  decide (0 < strcmp a.1 b.1)

/-- H5T_sort_value: sort compound members by offset, enum members by
value bytes; short-circuit when the memoized state already says
H5T_SORT_VALUE; the enum branch permutes the parallel name and value
arrays together. Returns (error status, new descriptor, new map); a
class that is neither compound nor enum trips the entry assertion, which
is modelled as UnsupportedKind with the state unchanged. -/
def H5T_sort_value (dt : H5T_t) (map : Option (List Int)) :
    Option H5TError × H5T_t × Option (List Int) :=
  match dt.u with
  | .compnd c =>
    if c.sorted = .SORT_VALUE then (none, dt, map)
    else
      let r := sortWithMap cmembValueGt c.memb map
      (none, { dt with u := .compnd { memb := r.1, sorted := .SORT_VALUE } }, r.2)
  | .enumer e =>
    if e.sorted = .SORT_VALUE then (none, dt, map)
    else
      let r := sortWithMap enumValueGt (e.name.zip e.value) map
      (none, { dt with u := .enumer { name := r.1.map Prod.fst,
                                      value := r.1.map Prod.snd,
                                      sorted := .SORT_VALUE } }, r.2)
  | .other => (some .UnsupportedKind, dt, map)

/-- H5T_sort_name: sort compound or enum members by name; short-circuit
when the memoized state already says H5T_SORT_NAME. Same shape as
H5T_sort_value with the name comparison. -/
def H5T_sort_name (dt : H5T_t) (map : Option (List Int)) :
    Option H5TError × H5T_t × Option (List Int) :=
  match dt.u with
  | .compnd c =>
    if c.sorted = .SORT_NAME then (none, dt, map)
    else
      let r := sortWithMap cmembNameGt c.memb map
      (none, { dt with u := .compnd { memb := r.1, sorted := .SORT_NAME } }, r.2)
  | .enumer e =>
    if e.sorted = .SORT_NAME then (none, dt, map)
    else
      let r := sortWithMap enumNameGt (e.name.zip e.value) map
      (none, { dt with u := .enumer { name := r.1.map Prod.fst,
                                      value := r.1.map Prod.snd,
                                      sorted := .SORT_NAME } }, r.2)
  | .other => (some .UnsupportedKind, dt, map)

/-- The member names of a descriptor in current order (the array the
linear scan of H5Tget_member_index walks). -/
def memberNames (dt : H5T_t) : List (List Nat) :=
  match dt.u with
  | .compnd c => c.memb.map H5T_cmemb_t.name
  | .enumer e => e.name
  | .other => []

/-- The compound member array of a descriptor (empty for other kinds). -/
def membOf (dt : H5T_t) : List H5T_cmemb_t :=
  match dt.u with
  | .compnd c => c.memb
  | _ => []

/-- The memoized sort state of a descriptor, none for classes that have
no member list. -/
def sortedTag (dt : H5T_t) : Option H5T_sort_t :=
  match dt.u with
  | .compnd c => some c.sorted
  | .enumer e => some e.sorted
  | .other => none

/-- The identity permutation map 0, 1, ..., n-1 a caller passes before a
sort in order to track where each member went. -/
def idMap (n : Nat) : List Int :=
  (List.range n).map Int.ofNat

/-- Compound members in non-decreasing byte-offset order (adjacent
pairs). -/
def offsetsSorted (l : List H5T_cmemb_t) : Prop :=
  l.Chain' (fun a b => a.offset ≤ b.offset)

/-- Names in non-decreasing strcmp order (adjacent pairs). -/
def namesSorted (ns : List (List Nat)) : Prop :=
  ns.Chain' (fun a b => strcmp a b ≤ 0)

/-- Enum value chunks in non-decreasing memcmp order (adjacent pairs). -/
def valuesSorted (vs : List (List Nat)) : Prop :=
  vs.Chain' (fun a b => memcmp a b ≤ 0)

/-- The data-model invariant on the memoized sort state: a descriptor
whose tag says BY_POSITION (resp. BY_NAME) really has its members in
that order. -/
def wfDescr (dt : H5T_t) : Prop :=
  match dt.u with
  | .compnd c =>
    (c.sorted = .SORT_VALUE → offsetsSorted c.memb) ∧
    (c.sorted = .SORT_NAME → namesSorted (c.memb.map H5T_cmemb_t.name))
  | .enumer e =>
    (e.sorted = .SORT_VALUE → valuesSorted e.value) ∧
    (e.sorted = .SORT_NAME → namesSorted e.name)
  | .other => True

/-- The representation invariant of the enum parallel arrays: the name
and value arrays both have nmembs entries. -/
def wfLen (dt : H5T_t) : Prop :=
  match dt.u with
  | .enumer e => e.name.length = e.value.length
  | _ => True

/-- A caller-supplied map is well-sized when it has one entry per
member, as the source requires of the parallel array. -/
def mapOk (dt : H5T_t) (map : Option (List Int)) : Prop :=
  ∀ m ∈ map, m.length = (memberNames dt).length

/-- The outer loop of the source written with explicit fuel: one unit of
fuel per iteration of the for loop, returning none when the fuel runs
out before the loop exits. Used to state that the loop terminates within
i + 1 iterations. -/
def bubbleLoopFuel {α : Type} (gt : α → α → Bool) :
    Nat → Nat → List (α × Int) → Option (List (α × Int))
  | 0, _, _ => none
  | _ + 1, 0, l => some l
  | f + 1, i + 1, l =>
    let r := bubbleStep gt (l.take (i + 2))
    let l2 := r.1 ++ l.drop (i + 2)
    if r.2 then bubbleLoopFuel gt f i l2 else some l2

/-- Scenario A: record descriptor with members (b, 8), (a, 0), (c, 4),
names as ASCII byte lists. -/
def dtA : H5T_t :=
  { size := 0, u := .compnd { memb := [ { name := [98], offset := 8 },
                                        { name := [97], offset := 0 },
                                        { name := [99], offset := 4 } ],
                              sorted := .SORT_NONE } }

/-- Scenario A after sortByPosition: (a, 0), (c, 4), (b, 8), tagged
H5T_SORT_VALUE. -/
def dtAv : H5T_t :=
  { size := 0, u := .compnd { memb := [ { name := [97], offset := 0 },
                                        { name := [99], offset := 4 },
                                        { name := [98], offset := 8 } ],
                              sorted := .SORT_VALUE } }

/-- Scenario B: enum descriptor with 4-byte big-endian values
(RED, 0x00000002), (GREEN, 0x00000001), names as ASCII byte lists. -/
def dtB : H5T_t :=
  { size := 4, u := .enumer { name := [[82, 69, 68], [71, 82, 69, 69, 78]],
                              value := [[0, 0, 0, 2], [0, 0, 0, 1]],
                              sorted := .SORT_NONE } }

/-- Scenario B after sortByPosition: (GREEN, 1), (RED, 2), tagged
H5T_SORT_VALUE. -/
def dtBv : H5T_t :=
  { size := 4, u := .enumer { name := [[71, 82, 69, 69, 78], [82, 69, 68]],
                              value := [[0, 0, 0, 1], [0, 0, 0, 2]],
                              sorted := .SORT_VALUE } }

/-- A descriptor of some other class (neither compound nor enum), used
to exercise the unsupported-kind failure path. -/
def dtOther : H5T_t :=
  { size := 4, u := .other }

/-! ### Properties of the byte comparisons -/

theorem strcmp_self : ∀ a, strcmp a a = 0
  | [] => rfl
  | _ :: as => by simp [strcmp, strcmp_self as]

theorem strcmp_eq_zero_iff : ∀ a b, strcmp a b = 0 ↔ a = b
  | [], [] => by simp [strcmp]
  | [], _ :: _ => by simp [strcmp]
  | _ :: _, [] => by simp [strcmp]
  | x :: as, y :: bs => by
    have ih := strcmp_eq_zero_iff as bs
    simp only [strcmp, List.cons.injEq]
    split_ifs with h1 h2
    · refine ⟨fun h => absurd h (by decide), ?_⟩
      rintro ⟨rfl, rfl⟩
      exact absurd h1 (lt_irrefl x)
    · refine ⟨fun h => absurd h (by decide), ?_⟩
      rintro ⟨rfl, rfl⟩
      exact absurd h2 (lt_irrefl x)
    · have hxy : x = y := by omega
      simp [hxy, ih]

theorem strcmp_neg : ∀ a b, strcmp a b = -strcmp b a
  | [], [] => rfl
  | [], _ :: _ => rfl
  | _ :: _, [] => rfl
  | x :: as, y :: bs => by
    have ih := strcmp_neg as bs
    simp only [strcmp]
    split_ifs <;> omega

theorem strcmp_le_trans : ∀ a b c, strcmp a b ≤ 0 → strcmp b c ≤ 0 → strcmp a c ≤ 0
  | [], b, c, _, _ => by cases c <;> simp [strcmp]
  | _ :: _, [], _, h1, _ => by simp [strcmp] at h1
  | _ :: _, _ :: _, [], _, h2 => by simp [strcmp] at h2
  | x :: as, y :: bs, z :: cs, h1, h2 => by
    have ih := strcmp_le_trans as bs cs
    simp only [strcmp] at h1 h2 ⊢
    split_ifs at h1 h2 ⊢ <;> first | omega | exact ih h1 h2

theorem strcmp_gt_le_trans (a b c : List Nat)
    (h1 : 0 < strcmp a b) (h2 : strcmp a c ≤ 0) : strcmp b c ≤ 0 := by
  by_contra h3
  push_neg at h3
  have h4 := strcmp_neg b c
  have h5 : strcmp c b ≤ 0 := by omega
  have h6 := strcmp_le_trans a c b h2 h5
  omega

theorem memcmp_self : ∀ a, memcmp a a = 0
  | [] => rfl
  | _ :: as => by simp [memcmp, memcmp_self as]

theorem memcmp_neg : ∀ a b, memcmp a b = -memcmp b a
  | [], [] => rfl
  | [], _ :: _ => rfl
  | _ :: _, [] => rfl
  | x :: as, y :: bs => by
    have ih := memcmp_neg as bs
    simp only [memcmp]
    split_ifs <;> omega

theorem memcmp_le_trans : ∀ a b c : List Nat, a.length = b.length → b.length = c.length →
    memcmp a b ≤ 0 → memcmp b c ≤ 0 → memcmp a c ≤ 0
  | [], [], [], _, _, _, _ => by simp [memcmp]
  | [], [], _ :: _, _, hbc, _, _ => by simp at hbc
  | [], _ :: _, _, hab, _, _, _ => by simp at hab
  | _ :: _, [], _, hab, _, _, _ => by simp at hab
  | _ :: _, _ :: _, [], _, hbc, _, _ => by simp at hbc
  | x :: as, y :: bs, z :: cs, hab, hbc, h1, h2 => by
    have ih := memcmp_le_trans as bs cs (by simpa using hab) (by simpa using hbc)
    simp only [memcmp] at h1 h2 ⊢
    split_ifs at h1 h2 ⊢ <;> first | omega | exact ih h1 h2

theorem memcmp_gt_le_trans (a b c : List Nat)
    (hab : a.length = b.length) (hbc : b.length = c.length)
    (h1 : 0 < memcmp a b) (h2 : memcmp a c ≤ 0) : memcmp b c ≤ 0 := by
  by_contra h3
  push_neg at h3
  have h4 := memcmp_neg b c
  have h5 : memcmp c b ≤ 0 := by omega
  have h6 := memcmp_le_trans a c b (by omega) (by omega) h2 h5
  omega

/-! ### Facts about one pass of the inner loop -/

theorem bubbleStep_nil {α : Type} (gt : α → α → Bool) :
    bubbleStep gt [] = ([], false) := rfl

theorem bubbleStep_single {α : Type} (gt : α → α → Bool) (a : α × Int) :
    bubbleStep gt [a] = ([a], false) := rfl

theorem bubbleStep_cons_cons_pos {α : Type} (gt : α → α → Bool) (a b : α × Int)
    (rest : List (α × Int)) (h : gt a.1 b.1 = true) :
    bubbleStep gt (a :: b :: rest) = (b :: (bubbleStep gt (a :: rest)).1, true) := by
  simp [bubbleStep, bubblePass, h]

theorem bubbleStep_cons_cons_neg {α : Type} (gt : α → α → Bool) (a b : α × Int)
    (rest : List (α × Int)) (h : gt a.1 b.1 = false) :
    bubbleStep gt (a :: b :: rest) =
      (a :: (bubbleStep gt (b :: rest)).1, (bubbleStep gt (b :: rest)).2) := by
  simp [bubbleStep, bubblePass, h]

theorem bubbleStep_perm {α : Type} (gt : α → α → Bool) :
    ∀ l : List (α × Int), ((bubbleStep gt l).1).Perm l
  | [] => by simp [bubbleStep_nil]
  | [a] => by simp [bubbleStep_single]
  | a :: b :: rest => by
    by_cases h : gt a.1 b.1
    · rw [bubbleStep_cons_cons_pos gt a b rest h]
      exact ((bubbleStep_perm gt (a :: rest)).cons b).trans (List.Perm.swap a b rest)
    · rw [bubbleStep_cons_cons_neg gt a b rest (by simpa using h)]
      exact (bubbleStep_perm gt (b :: rest)).cons a
termination_by l => l.length

theorem bubbleStep_length {α : Type} (gt : α → α → Bool) (l : List (α × Int)) :
    ((bubbleStep gt l).1).length = l.length :=
  (bubbleStep_perm gt l).length_eq

theorem bubbleStep_not_swapped_eq {α : Type} (gt : α → α → Bool) :
    ∀ l : List (α × Int), (bubbleStep gt l).2 = false → (bubbleStep gt l).1 = l
  | [] => by simp [bubbleStep_nil]
  | [a] => by simp [bubbleStep_single]
  | a :: b :: rest => by
    intro hsw
    by_cases h : gt a.1 b.1
    · rw [bubbleStep_cons_cons_pos gt a b rest h] at hsw
      simp at hsw
    · rw [bubbleStep_cons_cons_neg gt a b rest (by simpa using h)] at hsw ⊢
      simp only at hsw ⊢
      rw [bubbleStep_not_swapped_eq gt (b :: rest) hsw]

theorem bubbleStep_not_swapped_sorted {α : Type} (gt : α → α → Bool) :
    ∀ l : List (α × Int), (bubbleStep gt l).2 = false →
      l.Chain' (fun p q => gt p.1 q.1 = false)
  | [] => by simp
  | [a] => by simp
  | a :: b :: rest => by
    intro hsw
    by_cases h : gt a.1 b.1
    · rw [bubbleStep_cons_cons_pos gt a b rest h] at hsw
      simp at hsw
    · rw [bubbleStep_cons_cons_neg gt a b rest (by simpa using h)] at hsw
      simp only at hsw
      exact List.chain'_cons.mpr
        ⟨by simpa using h, bubbleStep_not_swapped_sorted gt (b :: rest) hsw⟩

theorem bubbleStep_getLast_max {α : Type} (gt : α → α → Bool) (P : α → Prop)
    (hirr : ∀ a, P a → gt a a = false)
    (hgtle : ∀ a b c, P a → P b → P c → gt a b = true → gt a c = false → gt b c = false)
    (hlele : ∀ a b c, P a → P b → P c → gt a b = false → gt b c = false → gt a c = false) :
    ∀ l : List (α × Int), (∀ p ∈ l, P p.1) →
      ∀ m ∈ ((bubbleStep gt l).1).getLast?, ∀ x ∈ (bubbleStep gt l).1, gt x.1 m.1 = false
  | [] => by
    intro _ m hm
    rw [bubbleStep_nil] at hm
    simp at hm
  | [a] => by
    intro hP m hm x hx
    rw [bubbleStep_single] at hm hx
    simp only [List.getLast?_singleton, Option.mem_def, Option.some.injEq] at hm
    simp only [List.mem_singleton] at hx
    subst hm
    subst hx
    exact hirr _ (hP _ (by simp))
  | a :: b :: rest => by
    intro hP m hm x hx
    by_cases h : gt a.1 b.1
    · rw [bubbleStep_cons_cons_pos gt a b rest h] at hm hx
      have hperm := bubbleStep_perm gt (a :: rest)
      have hne : (bubbleStep gt (a :: rest)).1 ≠ [] := by
        intro hnil
        have := hperm.length_eq
        rw [hnil] at this
        simp at this
      obtain ⟨c, r', hr⟩ := List.exists_cons_of_ne_nil hne
      rw [hr, List.getLast?_cons_cons] at hm
      rw [← hr] at hm
      have hPsub : ∀ p ∈ a :: rest, P p.1 := by
        intro p hp
        rcases List.mem_cons.1 hp with rfl | hp'
        · exact hP p (by simp)
        · exact hP p (by simp [hp'])
      have IH := bubbleStep_getLast_max gt P hirr hgtle hlele (a :: rest) hPsub m hm
      have hmem : m ∈ (bubbleStep gt (a :: rest)).1 := by
        rw [hr] at hm ⊢
        rcases List.mem_getLast?_eq_getLast hm with ⟨_, rfl⟩
        exact List.getLast_mem _
      have hPm : P m.1 := hPsub m (hperm.mem_iff.1 hmem)
      have haR : a ∈ (bubbleStep gt (a :: rest)).1 := hperm.mem_iff.2 (by simp)
      rcases List.mem_cons.1 hx with rfl | hxr
      · exact hgtle a.1 x.1 m.1 (hP a (by simp)) (hP x (by simp)) hPm h (IH a haR)
      · exact IH x hxr
    · have hgf : gt a.1 b.1 = false := by simpa using h
      rw [bubbleStep_cons_cons_neg gt a b rest hgf] at hm hx
      have hperm := bubbleStep_perm gt (b :: rest)
      have hne : (bubbleStep gt (b :: rest)).1 ≠ [] := by
        intro hnil
        have := hperm.length_eq
        rw [hnil] at this
        simp at this
      obtain ⟨c, r', hr⟩ := List.exists_cons_of_ne_nil hne
      rw [hr, List.getLast?_cons_cons] at hm
      rw [← hr] at hm
      have hPsub : ∀ p ∈ b :: rest, P p.1 := by
        intro p hp
        rcases List.mem_cons.1 hp with rfl | hp'
        · exact hP p (by simp)
        · exact hP p (by simp [hp'])
      have IH := bubbleStep_getLast_max gt P hirr hgtle hlele (b :: rest) hPsub m hm
      have hmem : m ∈ (bubbleStep gt (b :: rest)).1 := by
        rw [hr] at hm ⊢
        rcases List.mem_getLast?_eq_getLast hm with ⟨_, rfl⟩
        exact List.getLast_mem _
      have hPm : P m.1 := hPsub m (hperm.mem_iff.1 hmem)
      have hbR : b ∈ (bubbleStep gt (b :: rest)).1 := hperm.mem_iff.2 (by simp)
      rcases List.mem_cons.1 hx with rfl | hxr
      · exact hlele x.1 b.1 m.1 (hP x (by simp)) (hP b (by simp)) hPm hgf (IH b hbR)
      · exact IH x hxr

/-! ### Facts about the outer loop -/

theorem bubbleSortAux_perm {α : Type} (gt : α → α → Bool) :
    ∀ (i : Nat) (l : List (α × Int)), (bubbleSortAux gt i l).Perm l
  | 0, l => by simp [bubbleSortAux]
  | i + 1, l => by
    have hperm : ((bubbleStep gt (l.take (i + 2))).1 ++ l.drop (i + 2)).Perm l := by
      have h := (bubbleStep_perm gt (l.take (i + 2))).append_right (l.drop (i + 2))
      have h2 : (l.take (i + 2) ++ l.drop (i + 2)).Perm l := by
        rw [List.take_append_drop]
      exact h.trans h2
    simp only [bubbleSortAux]
    split
    · exact (bubbleSortAux_perm gt i _).trans hperm
    · exact hperm

theorem bubbleSortAux_sorted {α : Type} (gt : α → α → Bool) (P : α → Prop)
    (hirr : ∀ a, P a → gt a a = false)
    (hgtle : ∀ a b c, P a → P b → P c → gt a b = true → gt a c = false → gt b c = false)
    (hlele : ∀ a b c, P a → P b → P c → gt a b = false → gt b c = false → gt a c = false) :
    ∀ (i : Nat) (front back : List (α × Int)),
      front.length = i + 1 →
      (∀ p ∈ front ++ back, P p.1) →
      back.Chain' (fun p q => gt p.1 q.1 = false) →
      (∀ a ∈ front, ∀ b ∈ back, gt a.1 b.1 = false) →
      (bubbleSortAux gt i (front ++ back)).Chain' (fun p q => gt p.1 q.1 = false)
  | 0, front, back => by
    intro hlen _ hcb hfb
    obtain ⟨p, rfl⟩ := List.length_eq_one.1 hlen
    simp only [bubbleSortAux, List.singleton_append]
    exact List.chain'_cons'.mpr
      ⟨fun y hy => hfb p (by simp) y (List.mem_of_mem_head? hy), hcb⟩
  | i + 1, front, back => by
    intro hlen hP hcb hfb
    have htake : (front ++ back).take (i + 2) = front := List.take_left' hlen
    have hdrop : (front ++ back).drop (i + 2) = back := List.drop_left' hlen
    simp only [bubbleSortAux, htake, hdrop]
    by_cases hsw : (bubbleStep gt front).2
    · simp only [hsw, if_true]
      have hperm := bubbleStep_perm gt front
      have hne : (bubbleStep gt front).1 ≠ [] := by
        intro hnil
        have h := hperm.length_eq
        rw [hnil] at h
        simp [hlen] at h
      set r1 := (bubbleStep gt front).1 with hr1
      have hsplit : r1.dropLast ++ [r1.getLast hne] = r1 :=
        List.dropLast_append_getLast hne
      have hlen2 : r1.dropLast.length = i + 1 := by
        have := hperm.length_eq
        simp [List.length_dropLast, this, hlen]
      have hrw : r1 ++ back = r1.dropLast ++ (r1.getLast hne :: back) := by
        have h1 : r1 ++ back = (r1.dropLast ++ [r1.getLast hne]) ++ back := by
          rw [hsplit]
        rw [h1, List.append_assoc, List.singleton_append]
      rw [hrw]
      have hmemr1 : ∀ p ∈ r1, p ∈ front := fun p hp => hperm.mem_iff.1 hp
      have hlastr1 : r1.getLast hne ∈ r1 := List.getLast_mem hne
      have hmax := bubbleStep_getLast_max gt P hirr hgtle hlele front
        (fun p hp => hP p (List.mem_append_left back hp))
        (r1.getLast hne) (by rw [← hr1, List.getLast?_eq_getLast_of_ne_nil hne]; rfl)
      refine bubbleSortAux_sorted gt P hirr hgtle hlele i r1.dropLast
        (r1.getLast hne :: back) hlen2 ?_ ?_ ?_
      · intro p hp
        rcases List.mem_append.1 hp with hp1 | hp2
        · exact hP p (List.mem_append_left back (hmemr1 p (List.dropLast_sublist r1 |>.mem hp1)))
        · rcases List.mem_cons.1 hp2 with rfl | hp3
          · exact hP _ (List.mem_append_left back (hmemr1 _ hlastr1))
          · exact hP p (List.mem_append_right front hp3)
      · exact List.chain'_cons'.mpr
          ⟨fun y hy => hfb _ (hmemr1 _ hlastr1) y (List.mem_of_mem_head? hy), hcb⟩
      · intro a ha b hb
        rcases List.mem_cons.1 hb with rfl | hb2
        · exact hmax a (List.dropLast_sublist r1 |>.mem ha)
        · exact hfb a (hmemr1 a (List.dropLast_sublist r1 |>.mem ha)) b hb2
    · simp only [hsw]
      have hfalse : (bubbleStep gt front).2 = false := by simpa using hsw
      rw [if_neg (by simp [hfalse])]
      rw [bubbleStep_not_swapped_eq gt front hfalse]
      refine List.chain'_append.mpr
        ⟨bubbleStep_not_swapped_sorted gt front hfalse, hcb, ?_⟩
      intro x hx y hy
      exact hfb x (List.mem_of_mem_getLast? hx) y (List.mem_of_mem_head? hy)

theorem bubbleSort_perm {α : Type} (gt : α → α → Bool) (l : List (α × Int)) :
    (bubbleSort gt l).Perm l :=
  bubbleSortAux_perm gt (l.length - 1) l

theorem bubbleSort_sorted {α : Type} (gt : α → α → Bool) (P : α → Prop)
    (hirr : ∀ a, P a → gt a a = false)
    (hgtle : ∀ a b c, P a → P b → P c → gt a b = true → gt a c = false → gt b c = false)
    (hlele : ∀ a b c, P a → P b → P c → gt a b = false → gt b c = false → gt a c = false)
    (l : List (α × Int)) (hP : ∀ p ∈ l, P p.1) :
    (bubbleSort gt l).Chain' (fun p q => gt p.1 q.1 = false) := by
  cases l with
  | nil => simp [bubbleSort, bubbleSortAux]
  | cons a t =>
    have h := bubbleSortAux_sorted gt P hirr hgtle hlele t.length (a :: t) []
      (by simp) (by simpa using hP) (by simp) (by simp)
    simpa [bubbleSort] using h

/-! ### The sort combined with the optional map, and the comparators -/

theorem sortWithMap_sorted {α : Type} (gt : α → α → Bool) (P : α → Prop)
    (hirr : ∀ a, P a → gt a a = false)
    (hgtle : ∀ a b c, P a → P b → P c → gt a b = true → gt a c = false → gt b c = false)
    (hlele : ∀ a b c, P a → P b → P c → gt a b = false → gt b c = false → gt a c = false)
    (mem : List α) (map : Option (List Int)) (hP : ∀ a ∈ mem, P a) :
    ((sortWithMap gt mem map).1).Chain' (fun a b => gt a b = false) := by
  have key : ∀ m : List Int,
      ((bubbleSort gt (mem.zip m)).map Prod.fst).Chain' (fun a b => gt a b = false) := by
    intro m
    rw [List.chain'_map]
    exact bubbleSort_sorted gt P hirr hgtle hlele _
      (fun p hp => hP p.1 (List.of_mem_zip hp).1)
  cases map with
  | none => exact key _
  | some m => exact key m

theorem sortWithMap_fst_perm {α : Type} (gt : α → α → Bool) (mem : List α)
    (map : Option (List Int)) (hm : ∀ m ∈ map, m.length = mem.length) :
    ((sortWithMap gt mem map).1).Perm mem := by
  cases map with
  | none =>
    have h := (bubbleSort_perm gt (mem.zip (List.replicate mem.length 0))).map Prod.fst
    rw [List.map_fst_zip mem (List.replicate mem.length 0) (by simp)] at h
    exact h
  | some m =>
    have hlen := hm m rfl
    have h := (bubbleSort_perm gt (mem.zip m)).map Prod.fst
    rw [List.map_fst_zip mem m (le_of_eq hlen.symm)] at h
    exact h

theorem cmembValueGt_irrefl (a : H5T_cmemb_t) : cmembValueGt a a = false := by
  simp [cmembValueGt]

theorem cmembValueGt_gtle (a b c : H5T_cmemb_t) :
    cmembValueGt a b = true → cmembValueGt a c = false → cmembValueGt b c = false := by
  intro h1 h2
  simp only [cmembValueGt, decide_eq_true_eq, decide_eq_false_iff_not, not_lt] at h1 h2 ⊢
  omega

theorem cmembValueGt_lele (a b c : H5T_cmemb_t) :
    cmembValueGt a b = false → cmembValueGt b c = false → cmembValueGt a c = false := by
  intro h1 h2
  simp only [cmembValueGt, decide_eq_false_iff_not, not_lt] at h1 h2 ⊢
  omega

theorem cmembNameGt_irrefl (a : H5T_cmemb_t) : cmembNameGt a a = false := by
  simp [cmembNameGt, strcmp_self]

theorem cmembNameGt_gtle (a b c : H5T_cmemb_t) :
    cmembNameGt a b = true → cmembNameGt a c = false → cmembNameGt b c = false := by
  simp only [cmembNameGt, decide_eq_true_eq, decide_eq_false_iff_not, not_lt]
  exact fun h1 h2 => strcmp_gt_le_trans _ _ _ h1 h2

theorem cmembNameGt_lele (a b c : H5T_cmemb_t) :
    cmembNameGt a b = false → cmembNameGt b c = false → cmembNameGt a c = false := by
  simp only [cmembNameGt, decide_eq_false_iff_not, not_lt]
  exact fun h1 h2 => strcmp_le_trans _ _ _ h1 h2

theorem enumNameGt_irrefl (a : List Nat × List Nat) : enumNameGt a a = false := by
  simp [enumNameGt, strcmp_self]

theorem enumNameGt_gtle (a b c : List Nat × List Nat) :
    enumNameGt a b = true → enumNameGt a c = false → enumNameGt b c = false := by
  simp only [enumNameGt, decide_eq_true_eq, decide_eq_false_iff_not, not_lt]
  exact fun h1 h2 => strcmp_gt_le_trans _ _ _ h1 h2

theorem enumNameGt_lele (a b c : List Nat × List Nat) :
    enumNameGt a b = false → enumNameGt b c = false → enumNameGt a c = false := by
  simp only [enumNameGt, decide_eq_false_iff_not, not_lt]
  exact fun h1 h2 => strcmp_le_trans _ _ _ h1 h2

theorem enumValueGt_irrefl (a : List Nat × List Nat) : enumValueGt a a = false := by
  simp [enumValueGt, memcmp_self]

theorem enumValueGt_gtle (sz : Nat) (a b c : List Nat × List Nat)
    (ha : a.2.length = sz) (hb : b.2.length = sz) (hc : c.2.length = sz) :
    enumValueGt a b = true → enumValueGt a c = false → enumValueGt b c = false := by
  simp only [enumValueGt, decide_eq_true_eq, decide_eq_false_iff_not, not_lt]
  exact fun h1 h2 => memcmp_gt_le_trans _ _ _ (by omega) (by omega) h1 h2

theorem enumValueGt_lele (sz : Nat) (a b c : List Nat × List Nat)
    (ha : a.2.length = sz) (hb : b.2.length = sz) (hc : c.2.length = sz) :
    enumValueGt a b = false → enumValueGt b c = false → enumValueGt a c = false := by
  simp only [enumValueGt, decide_eq_false_iff_not, not_lt]
  exact fun h1 h2 => memcmp_le_trans _ _ _ (by omega) (by omega) h1 h2

/-! ### Characterization of the linear scan -/

theorem memberScan_spec : ∀ (names : List (List Nat)) (key : List Nat) (i : Int),
    (memberScan names key i = -1 ∧ key ∉ names) ∨
    (∃ k : Nat, k < names.length ∧ memberScan names key i = i + (k : Int) ∧
      names.getD k [] = key ∧ ∀ j : Nat, j < k → names.getD j [] ≠ key)
  | [], _, _ => Or.inl ⟨rfl, by simp⟩
  | n :: rest, key, i => by
    by_cases h : strcmp n key = 0
    · have hnk : n = key := (strcmp_eq_zero_iff n key).1 h
      right
      refine ⟨0, by simp, by simp [memberScan, h], by simpa using hnk, ?_⟩
      intro j hj
      exact absurd hj (Nat.not_lt_zero j)
    · have hnk : n ≠ key := fun he => h ((strcmp_eq_zero_iff n key).2 he)
      have hscan : memberScan (n :: rest) key i = memberScan rest key (i + 1) := by
        simp [memberScan, h]
      rcases memberScan_spec rest key (i + 1) with ⟨hs, hnm⟩ | ⟨k, hk, hs, hget, hpre⟩
      · left
        refine ⟨by rw [hscan, hs], ?_⟩
        intro hc
        rcases List.mem_cons.1 hc with rfl | hc2
        · exact hnk rfl
        · exact hnm hc2
      · right
        refine ⟨k + 1, by simpa using Nat.succ_lt_succ hk, ?_, by simpa using hget, ?_⟩
        · rw [hscan, hs]
          push_cast
          ring
        · intro j hj
          cases j with
          | zero => simpa using hnk
          | succ j' => simpa using hpre j' (by omega)

theorem memberScan_nodup (names : List (List Nat)) (key : List Nat) (t : Nat)
    (ht : t < names.length) (hkey : names.getD t [] = key) (hnd : names.Nodup) :
    memberScan names key 0 = (t : Int) := by
  rcases memberScan_spec names key 0 with ⟨_, hnm⟩ | ⟨k, hk, hs, hget, hpre⟩
  · exfalso
    apply hnm
    rw [← hkey, List.getD_eq_getElem _ _ ht]
    exact List.getElem_mem ht
  · have hkt : k = t := by
      rcases Nat.lt_trichotomy k t with hlt | heq | hgt
      · exfalso
        have h1 : names[k] = names[t] := by
          have h2 : names.getD k [] = names.getD t [] := by rw [hget, hkey]
          rwa [List.getD_eq_getElem _ _ hk, List.getD_eq_getElem _ _ ht] at h2
        have h3 : (⟨k, hk⟩ : Fin names.length) = ⟨t, ht⟩ := by
          apply List.nodup_iff_injective_getElem.1 hnd
          exact h1
        simp only [Fin.mk.injEq] at h3
        omega
      · exact heq
      · exact absurd hkey (hpre t hgt)
    rw [hs, hkt]
    omega

/-! ### Characterization of memcmp being positive -/

theorem memcmp_pos_iff : ∀ v w : List Nat, v.length = w.length →
    (0 < memcmp v w ↔ ∃ k : Nat, k < v.length ∧
      (∀ j : Nat, j < k → v.getD j 0 = w.getD j 0) ∧ w.getD k 0 < v.getD k 0)
  | [], [], _ => by simp [memcmp]
  | [], _ :: _, h => by simp at h
  | _ :: _, [], h => by simp at h
  | a :: as, b :: bs, h => by
    have hlen : as.length = bs.length := by simpa using h
    have ih := memcmp_pos_iff as bs hlen
    simp only [memcmp]
    split_ifs with h1 h2
    · constructor
      · intro h0
        exact absurd h0 (by decide)
      · rintro ⟨k, hk, hpre, hlt⟩
        exfalso
        cases k with
        | zero =>
          simp only [List.getD_cons_zero] at hlt
          omega
        | succ k' =>
          have h3 := hpre 0 (Nat.succ_pos k')
          simp only [List.getD_cons_zero] at h3
          omega
    · constructor
      · intro _
        refine ⟨0, Nat.succ_pos _, ?_, by simpa using h2⟩
        intro j hj
        exact absurd hj (Nat.not_lt_zero j)
      · intro _
        decide
    · have hab : a = b := by omega
      rw [ih]
      constructor
      · rintro ⟨k, hk, hpre, hlt⟩
        refine ⟨k + 1, ?_, ?_, by simpa using hlt⟩
        · simp only [List.length_cons]
          omega
        · intro j hj
          cases j with
          | zero => simpa using hab
          | succ j' => simpa using hpre j' (by omega)
      · rintro ⟨k, hk, hpre, hlt⟩
        cases k with
        | zero =>
          simp only [List.getD_cons_zero] at hlt
          omega
        | succ k' =>
          refine ⟨k', ?_, ?_, by simpa using hlt⟩
          · simp only [List.length_cons] at hk
            omega
          · intro j hj
            have h4 := hpre (j + 1) (by omega)
            simpa using h4

/-! ### The fuel-counted outer loop terminates within i + 1 iterations -/

theorem bubbleLoopFuel_spec {α : Type} (gt : α → α → Bool) :
    ∀ (i : Nat) (l : List (α × Int)),
      bubbleLoopFuel gt (i + 1) i l = some (bubbleSortAux gt i l)
  | 0, l => by simp [bubbleLoopFuel, bubbleSortAux]
  | i + 1, l => by
    simp only [bubbleLoopFuel, bubbleSortAux]
    split
    · exact bubbleLoopFuel_spec gt i _
    · rfl

/-! ### Claim theorems -/

/-- C4: for every descriptor that is neither compound (record) nor enum,
both H5T_sort_value and H5T_sort_name fail with UnsupportedKind (the
entry assertion of the source, modelled as that failure), and any failed
sort call returns the descriptor and the caller map completely
unchanged: the kind check runs before any mutation, and the sorts have
no other failure path. -/
theorem C4_unsupported_kind (dt : H5T_t) (map : Option (List Int)) :
    (dt.u = .other →
      H5T_sort_value dt map = (some .UnsupportedKind, dt, map) ∧
      H5T_sort_name dt map = (some .UnsupportedKind, dt, map)) ∧
    (∀ err dt' map', H5T_sort_value dt map = (some err, dt', map') →
      err = .UnsupportedKind ∧ dt' = dt ∧ map' = map ∧ dt.u = .other) ∧
    (∀ err dt' map', H5T_sort_name dt map = (some err, dt', map') →
      err = .UnsupportedKind ∧ dt' = dt ∧ map' = map ∧ dt.u = .other) := by
  obtain ⟨sz, u⟩ := dt
  cases u with
  | compnd c =>
    refine ⟨?_, ?_, ?_⟩
    · intro h
      simp at h
    · intro err dt' map' h
      simp only [H5T_sort_value] at h
      split_ifs at h <;> simp at h
    · intro err dt' map' h
      simp only [H5T_sort_name] at h
      split_ifs at h <;> simp at h
  | enumer e =>
    refine ⟨?_, ?_, ?_⟩
    · intro h
      simp at h
    · intro err dt' map' h
      simp only [H5T_sort_value] at h
      split_ifs at h <;> simp at h
    · intro err dt' map' h
      simp only [H5T_sort_name] at h
      split_ifs at h <;> simp at h
  | other =>
    refine ⟨fun _ => ⟨rfl, rfl⟩, ?_, ?_⟩
    · intro err dt' map' h
      simp only [H5T_sort_value, Prod.mk.injEq, Option.some.injEq] at h
      obtain ⟨h1, h2, h3⟩ := h
      exact ⟨h1.symm, h2.symm, h3.symm, rfl⟩
    · intro err dt' map' h
      simp only [H5T_sort_name, Prod.mk.injEq, Option.some.injEq] at h
      obtain ⟨h1, h2, h3⟩ := h
      exact ⟨h1.symm, h2.symm, h3.symm, rfl⟩

/-- C3: when the memoized sort state already equals the requested order,
each sort entry point returns at once with the descriptor and the
caller map untouched; consequently any successful sort is idempotent:
the second identical call returns its input descriptor unchanged (it
reaches the short-circuit, so the sorting loop runs zero swaps) and does
not write the map of the second call. -/
theorem C3_short_circuit_idempotent (dt : H5T_t) (map map2 : Option (List Int)) :
    (sortedTag dt = some .SORT_VALUE → H5T_sort_value dt map = (none, dt, map)) ∧
    (sortedTag dt = some .SORT_NAME → H5T_sort_name dt map = (none, dt, map)) ∧
    ((H5T_sort_value dt map).1 = none →
      H5T_sort_value (H5T_sort_value dt map).2.1 map2 =
        (none, (H5T_sort_value dt map).2.1, map2)) ∧
    ((H5T_sort_name dt map).1 = none →
      H5T_sort_name (H5T_sort_name dt map).2.1 map2 =
        (none, (H5T_sort_name dt map).2.1, map2)) := by
  obtain ⟨sz, u⟩ := dt
  cases u with
  | compnd c =>
    by_cases h1 : c.sorted = .SORT_VALUE <;> by_cases h2 : c.sorted = .SORT_NAME <;>
      simp_all [H5T_sort_value, H5T_sort_name, sortedTag]
  | enumer e =>
    by_cases h1 : e.sorted = .SORT_VALUE <;> by_cases h2 : e.sorted = .SORT_NAME <;>
      simp_all [H5T_sort_value, H5T_sort_name, sortedTag]
  | other =>
    simp [H5T_sort_value, H5T_sort_name, sortedTag]

/-- C10: both sorts terminate on every record or enum descriptor: the
fuel-counted copy of the outer loop, whose index strictly decreases and
which exits after a pass with zero swaps, finishes within i + 1
iterations of the for loop and computes the total function
bubbleSortAux; consequently both entry points return a result (success)
on every compound or enum input. -/
theorem C10_termination :
    (∀ (α : Type) (gt : α → α → Bool) (i : Nat) (l : List (α × Int)),
      bubbleLoopFuel gt (i + 1) i l = some (bubbleSortAux gt i l)) ∧
    (∀ (dt : H5T_t) (map : Option (List Int)), dt.u ≠ .other →
      (H5T_sort_value dt map).1 = none ∧ (H5T_sort_name dt map).1 = none) := by
  constructor
  · exact fun _ gt i l => bubbleLoopFuel_spec gt i l
  · intro dt map hk
    obtain ⟨sz, u⟩ := dt
    cases u with
    | compnd c =>
      constructor <;> (simp only [H5T_sort_value, H5T_sort_name]; split_ifs <;> rfl)
    | enumer e =>
      constructor <;> (simp only [H5T_sort_value, H5T_sort_name]; split_ifs <;> rfl)
    | other => exact absurd rfl hk

/-- C6: on a record or enum descriptor, H5T_get_member_name fails with
InvalidIndex exactly when the index is negative or at least the member
count, so index -1 and index memberCount always fail; and when the
member count is zero every index fails and H5Tget_member_index always
returns the not-found result -1. -/
theorem C6_invalid_index (dt : H5T_t) (i : Int) (key : List Nat)
    (hk : dt.u ≠ .other) :
    (H5T_get_member_name dt i = .error .InvalidIndex ↔
      (i < 0 ∨ ((memberNames dt).length : Int) ≤ i)) ∧
    H5T_get_member_name dt (-1) = .error .InvalidIndex ∧
    H5T_get_member_name dt ((memberNames dt).length : Int) = .error .InvalidIndex ∧
    ((memberNames dt).length = 0 →
      H5T_get_member_name dt i = .error .InvalidIndex ∧
      H5Tget_member_index dt key = .ok (-1)) := by
  obtain ⟨sz, u⟩ := dt
  cases u with
  | compnd c =>
    simp only [H5T_get_member_name, H5Tget_member_index, memberNames, List.length_map]
    refine ⟨?_, ?_, ?_, fun h0 => ⟨?_, ?_⟩⟩
    · split_ifs with h
      · exact iff_of_true rfl h
      · exact iff_of_false (by simp) h
    · rw [if_pos (by omega)]
    · rw [if_pos (by omega)]
    · rw [if_pos (by omega)]
    · have hm : c.memb = [] := List.length_eq_zero.1 h0
      rw [hm]
      rfl
  | enumer e =>
    simp only [H5T_get_member_name, H5Tget_member_index, memberNames]
    refine ⟨?_, ?_, ?_, fun h0 => ⟨?_, ?_⟩⟩
    · split_ifs with h
      · exact iff_of_true rfl h
      · exact iff_of_false (by simp) h
    · rw [if_pos (by omega)]
    · rw [if_pos (by omega)]
    · rw [if_pos (by omega)]
    · have hm : e.name = [] := List.length_eq_zero.1 h0
      rw [hm]
      rfl
  | other => exact absurd rfl hk

/-- C7: on a record or enum descriptor with pairwise distinct member
names, looking up the name returned by H5T_get_member_name at any valid
index i returns exactly i, whatever the current sort state of the
descriptor is (the statement never inspects the sorted tag). -/
theorem C7_lookup_consistency (dt : H5T_t) (i : Int) (nm : List Nat)
    (hnd : (memberNames dt).Nodup)
    (h : H5T_get_member_name dt i = .ok nm) :
    H5Tget_member_index dt nm = .ok i := by
  obtain ⟨sz, u⟩ := dt
  cases u with
  | compnd c =>
    simp only [H5T_get_member_name] at h
    by_cases hcond : i < 0 ∨ (c.memb.length : Int) ≤ i
    · rw [if_pos hcond] at h
      exact absurd h (by simp)
    · rw [if_neg hcond] at h
      simp only [Except.ok.injEq] at h
      push_neg at hcond
      have hlt : i.toNat < c.memb.length := by omega
      have hlt2 : i.toNat < (c.memb.map H5T_cmemb_t.name).length := by
        simpa using hlt
      have hkey : (c.memb.map H5T_cmemb_t.name).getD i.toNat [] = nm := by
        rw [List.getD_eq_getElem _ _ hlt2, List.getElem_map, ← h,
          List.getD_eq_getElem _ _ hlt]
      have hnd2 : (c.memb.map H5T_cmemb_t.name).Nodup := by
        simpa [memberNames] using hnd
      have hscan := memberScan_nodup (c.memb.map H5T_cmemb_t.name) nm i.toNat
        hlt2 hkey hnd2
      simp only [H5Tget_member_index, hscan, Except.ok.injEq]
      omega
  | enumer e =>
    simp only [H5T_get_member_name] at h
    by_cases hcond : i < 0 ∨ (e.name.length : Int) ≤ i
    · rw [if_pos hcond] at h
      exact absurd h (by simp)
    · rw [if_neg hcond] at h
      simp only [Except.ok.injEq] at h
      push_neg at hcond
      have hlt : i.toNat < e.name.length := by omega
      have hkey : e.name.getD i.toNat [] = nm := h
      have hnd2 : e.name.Nodup := by simpa [memberNames] using hnd
      have hscan := memberScan_nodup e.name nm i.toNat hlt hkey hnd2
      simp only [H5Tget_member_index, hscan, Except.ok.injEq]
      omega
  | other => exact absurd h (by simp [H5T_get_member_name])

/-- C8: on a record or enum descriptor, H5Tget_member_index performs a
linear scan in current member order: the result is either -1 with the
key absent, or the lowest current index whose name equals the key
byte-for-byte, every smaller index holding a different name — so with
duplicate names the lowest current index wins and the result depends on
the current member order. -/
theorem C8_first_match (dt : H5T_t) (key : List Nat) (r : Int)
    (h : H5Tget_member_index dt key = .ok r) :
    (r = -1 ∧ key ∉ memberNames dt) ∨
    (0 ≤ r ∧ r.toNat < (memberNames dt).length ∧
      (memberNames dt).getD r.toNat [] = key ∧
      ∀ j : Nat, j < r.toNat → (memberNames dt).getD j [] ≠ key) := by
  obtain ⟨sz, u⟩ := dt
  cases u with
  | compnd c =>
    simp only [H5Tget_member_index, Except.ok.injEq] at h
    subst h
    simp only [memberNames]
    rcases memberScan_spec (c.memb.map H5T_cmemb_t.name) key 0 with
      ⟨hs, hnm⟩ | ⟨k, hk, hs, hget, hpre⟩
    · exact Or.inl ⟨hs, hnm⟩
    · right
      rw [hs]
      refine ⟨by omega, ?_, ?_, ?_⟩ <;> rw [show ((0 : Int) + (k : Int)).toNat = k from by omega]
      · exact hk
      · exact hget
      · exact hpre
  | enumer e =>
    simp only [H5Tget_member_index, Except.ok.injEq] at h
    subst h
    simp only [memberNames]
    rcases memberScan_spec e.name key 0 with
      ⟨hs, hnm⟩ | ⟨k, hk, hs, hget, hpre⟩
    · exact Or.inl ⟨hs, hnm⟩
    · right
      rw [hs]
      refine ⟨by omega, ?_, ?_, ?_⟩ <;> rw [show ((0 : Int) + (k : Int)).toNat = k from by omega]
      · exact hk
      · exact hget
      · exact hpre
  | other => exact absurd h (by simp [H5Tget_member_index])

/-! ### Unfolding equations for the two sorts on each kind -/

theorem H5T_sort_value_compnd_eq (sz : Nat) (c : H5T_compnd_t) (map : Option (List Int)) :
    H5T_sort_value ⟨sz, .compnd c⟩ map =
      if c.sorted = .SORT_VALUE then (none, ⟨sz, .compnd c⟩, map)
      else (none, ⟨sz, .compnd { memb := (sortWithMap cmembValueGt c.memb map).1,
                                 sorted := .SORT_VALUE }⟩,
            (sortWithMap cmembValueGt c.memb map).2) := rfl

theorem H5T_sort_name_compnd_eq (sz : Nat) (c : H5T_compnd_t) (map : Option (List Int)) :
    H5T_sort_name ⟨sz, .compnd c⟩ map =
      if c.sorted = .SORT_NAME then (none, ⟨sz, .compnd c⟩, map)
      else (none, ⟨sz, .compnd { memb := (sortWithMap cmembNameGt c.memb map).1,
                                 sorted := .SORT_NAME }⟩,
            (sortWithMap cmembNameGt c.memb map).2) := rfl

theorem H5T_sort_value_enumer_eq (sz : Nat) (e : H5T_enum_t) (map : Option (List Int)) :
    H5T_sort_value ⟨sz, .enumer e⟩ map =
      if e.sorted = .SORT_VALUE then (none, ⟨sz, .enumer e⟩, map)
      else (none, ⟨sz, .enumer
              { name := ((sortWithMap enumValueGt (e.name.zip e.value) map).1).map Prod.fst,
                value := ((sortWithMap enumValueGt (e.name.zip e.value) map).1).map Prod.snd,
                sorted := .SORT_VALUE }⟩,
            (sortWithMap enumValueGt (e.name.zip e.value) map).2) := rfl

theorem H5T_sort_name_enumer_eq (sz : Nat) (e : H5T_enum_t) (map : Option (List Int)) :
    H5T_sort_name ⟨sz, .enumer e⟩ map =
      if e.sorted = .SORT_NAME then (none, ⟨sz, .enumer e⟩, map)
      else (none, ⟨sz, .enumer
              { name := ((sortWithMap enumNameGt (e.name.zip e.value) map).1).map Prod.fst,
                value := ((sortWithMap enumNameGt (e.name.zip e.value) map).1).map Prod.snd,
                sorted := .SORT_NAME }⟩,
            (sortWithMap enumNameGt (e.name.zip e.value) map).2) := rfl

/-- C1: after H5T_sort_value on a record descriptor satisfying the
sort-state invariant, adjacent members are in non-decreasing byte-offset
order; after H5T_sort_name on a record or enum descriptor, adjacent
member names are in non-decreasing strcmp order. -/
theorem C1_order_invariant (dt : H5T_t) (map : Option (List Int)) (hwf : wfDescr dt) :
    (∀ c, dt.u = .compnd c → offsetsSorted (membOf (H5T_sort_value dt map).2.1)) ∧
    (dt.u ≠ .other → namesSorted (memberNames (H5T_sort_name dt map).2.1)) := by
  obtain ⟨sz, u⟩ := dt
  cases u with
  | compnd c =>
    have hwf' : (c.sorted = .SORT_VALUE → offsetsSorted c.memb) ∧
        (c.sorted = .SORT_NAME → namesSorted (c.memb.map H5T_cmemb_t.name)) := hwf
    constructor
    · rintro c0 hc0
      have hcc : c = c0 := by injection hc0
      subst hcc
      rw [H5T_sort_value_compnd_eq]
      by_cases h : c.sorted = .SORT_VALUE
      · rw [if_pos h]
        simpa [membOf] using hwf'.1 h
      · rw [if_neg h]
        simp only [membOf]
        have hch := sortWithMap_sorted cmembValueGt (fun _ => True)
          (fun a _ => cmembValueGt_irrefl a)
          (fun a b c2 _ _ _ => cmembValueGt_gtle a b c2)
          (fun a b c2 _ _ _ => cmembValueGt_lele a b c2)
          c.memb map (fun _ _ => trivial)
        simp only [offsetsSorted]
        refine List.Chain'.imp ?_ hch
        intro a b hab
        simpa [cmembValueGt, not_lt] using hab
    · intro _
      rw [H5T_sort_name_compnd_eq]
      by_cases h : c.sorted = .SORT_NAME
      · rw [if_pos h]
        simpa [memberNames] using hwf'.2 h
      · rw [if_neg h]
        simp only [memberNames]
        have hch := sortWithMap_sorted cmembNameGt (fun _ => True)
          (fun a _ => cmembNameGt_irrefl a)
          (fun a b c2 _ _ _ => cmembNameGt_gtle a b c2)
          (fun a b c2 _ _ _ => cmembNameGt_lele a b c2)
          c.memb map (fun _ _ => trivial)
        simp only [namesSorted, List.chain'_map]
        refine List.Chain'.imp ?_ hch
        intro a b hab
        simpa [cmembNameGt, not_lt] using hab
  | enumer e =>
    have hwf' : (e.sorted = .SORT_VALUE → valuesSorted e.value) ∧
        (e.sorted = .SORT_NAME → namesSorted e.name) := hwf
    constructor
    · rintro c0 hc0
      exact absurd hc0 (by simp)
    · intro _
      rw [H5T_sort_name_enumer_eq]
      by_cases h : e.sorted = .SORT_NAME
      · rw [if_pos h]
        simpa [memberNames] using hwf'.2 h
      · rw [if_neg h]
        simp only [memberNames]
        have hch := sortWithMap_sorted enumNameGt (fun _ => True)
          (fun a _ => enumNameGt_irrefl a)
          (fun a b c2 _ _ _ => enumNameGt_gtle a b c2)
          (fun a b c2 _ _ _ => enumNameGt_lele a b c2)
          (e.name.zip e.value) map (fun _ _ => trivial)
        simp only [namesSorted, List.chain'_map]
        refine List.Chain'.imp ?_ hch
        intro a b hab
        simpa [enumNameGt, not_lt] using hab
  | other =>
    constructor
    · rintro c0 hc0
      exact absurd hc0 (by simp)
    · intro hne
      exact absurd rfl hne

/-- C9: both sorts keep the member count and produce a permutation of
the pre-call members: the compound members (name with offset riding in
the same struct) are a permutation of the old ones, and the enum
name/value pairs, swapped in lock-step by the source, are a permutation
of the old pairs — every (name, key) association present before the
call is present after it and no new one appears. -/
theorem C9_permutation_preserved (dt : H5T_t) (map : Option (List Int))
    (hlen : wfLen dt) (hmap : mapOk dt map) :
    (∀ c, dt.u = .compnd c → ∃ c', (H5T_sort_value dt map).2.1.u = .compnd c' ∧
      (c'.memb).Perm c.memb ∧ c'.memb.length = c.memb.length) ∧
    (∀ c, dt.u = .compnd c → ∃ c', (H5T_sort_name dt map).2.1.u = .compnd c' ∧
      (c'.memb).Perm c.memb ∧ c'.memb.length = c.memb.length) ∧
    (∀ e, dt.u = .enumer e → ∃ e', (H5T_sort_value dt map).2.1.u = .enumer e' ∧
      ((e'.name.zip e'.value)).Perm (e.name.zip e.value) ∧
      e'.name.length = e.name.length ∧ e'.value.length = e.value.length) ∧
    (∀ e, dt.u = .enumer e → ∃ e', (H5T_sort_name dt map).2.1.u = .enumer e' ∧
      ((e'.name.zip e'.value)).Perm (e.name.zip e.value) ∧
      e'.name.length = e.name.length ∧ e'.value.length = e.value.length) := by
  obtain ⟨sz, u⟩ := dt
  cases u with
  | compnd c =>
    have hmlen : ∀ m ∈ map, m.length = c.memb.length := fun m hm => by
      have h2 := hmap m hm
      simpa [memberNames] using h2
    refine ⟨?_, ?_, fun e0 he0 => absurd he0 (by simp),
      fun e0 he0 => absurd he0 (by simp)⟩
    · rintro c0 hc0
      have hcc : c = c0 := by injection hc0
      subst hcc
      rw [H5T_sort_value_compnd_eq]
      by_cases h : c.sorted = .SORT_VALUE
      · rw [if_pos h]
        exact ⟨c, rfl, List.Perm.refl _, rfl⟩
      · rw [if_neg h]
        have hp := sortWithMap_fst_perm cmembValueGt c.memb map hmlen
        exact ⟨_, rfl, hp, hp.length_eq⟩
    · rintro c0 hc0
      have hcc : c = c0 := by injection hc0
      subst hcc
      rw [H5T_sort_name_compnd_eq]
      by_cases h : c.sorted = .SORT_NAME
      · rw [if_pos h]
        exact ⟨c, rfl, List.Perm.refl _, rfl⟩
      · rw [if_neg h]
        have hp := sortWithMap_fst_perm cmembNameGt c.memb map hmlen
        exact ⟨_, rfl, hp, hp.length_eq⟩
  | enumer e =>
    have hnv : e.name.length = e.value.length := hlen
    have hzlen : (e.name.zip e.value).length = e.name.length := by
      rw [List.length_zip]
      omega
    have hmlen : ∀ m ∈ map, m.length = (e.name.zip e.value).length := fun m hm => by
      have h2 := hmap m hm
      simp only [memberNames] at h2
      omega
    refine ⟨fun c0 hc0 => absurd hc0 (by simp),
      fun c0 hc0 => absurd hc0 (by simp), ?_, ?_⟩
    · rintro e0 he0
      have hee : e = e0 := by injection he0
      subst hee
      rw [H5T_sort_value_enumer_eq]
      by_cases h : e.sorted = .SORT_VALUE
      · rw [if_pos h]
        exact ⟨e, rfl, List.Perm.refl _, rfl, rfl⟩
      · rw [if_neg h]
        have hp := sortWithMap_fst_perm enumValueGt (e.name.zip e.value) map hmlen
        refine ⟨_, rfl, ?_, ?_, ?_⟩
        · rw [← List.unzip_fst, ← List.unzip_snd, List.zip_unzip]
          exact hp
        · have h3 := hp.length_eq
          simp only [List.length_map]
          omega
        · have h3 := hp.length_eq
          simp only [List.length_map]
          omega
    · rintro e0 he0
      have hee : e = e0 := by injection he0
      subst hee
      rw [H5T_sort_name_enumer_eq]
      by_cases h : e.sorted = .SORT_NAME
      · rw [if_pos h]
        exact ⟨e, rfl, List.Perm.refl _, rfl, rfl⟩
      · rw [if_neg h]
        have hp := sortWithMap_fst_perm enumNameGt (e.name.zip e.value) map hmlen
        refine ⟨_, rfl, ?_, ?_, ?_⟩
        · rw [← List.unzip_fst, ← List.unzip_snd, List.zip_unzip]
          exact hp
        · have h3 := hp.length_eq
          simp only [List.length_map]
          omega
        · have h3 := hp.length_eq
          simp only [List.length_map]
          omega
  | other =>
    exact ⟨fun c0 hc0 => absurd hc0 (by simp), fun c0 hc0 => absurd hc0 (by simp),
      fun e0 he0 => absurd he0 (by simp), fun e0 he0 => absurd he0 (by simp)⟩

/-- C5: the comparison the enum branch of H5T_sort_value applies to two
member values is HDmemcmp over the fixed-width raw bytes: it is positive
exactly when some position k holds a strictly larger byte (unsigned) on
the left while all earlier bytes agree, the first differing byte in
storage order deciding; and on the scenario-B enum descriptor with
big-endian 4-byte values RED = 2, GREEN = 1 the value sort produces
GREEN before RED. -/
theorem C5_enum_value_comparison :
    (∀ a b : List Nat × List Nat, a.2.length = b.2.length →
      (enumValueGt a b = true ↔ ∃ k : Nat, k < a.2.length ∧
        (∀ j : Nat, j < k → a.2.getD j 0 = b.2.getD j 0) ∧ b.2.getD k 0 < a.2.getD k 0)) ∧
    H5T_sort_value dtB none = (none, dtBv, none) := by
  constructor
  · intro a b hl
    simp only [enumValueGt, decide_eq_true_eq]
    exact memcmp_pos_iff a.2 b.2 hl
  · decide

/-! ### Helper facts for the identity permutation map -/

theorem idMap_length (n : Nat) : (idMap n).length = n := by
  simp [idMap]

theorem idMap_getD (n k : Nat) (hk : k < n) : (idMap n).getD k 0 = (k : Int) := by
  rw [List.getD_eq_getElem _ _ (by simpa [idMap] using hk)]
  simp [idMap]

theorem sortWithMap_fst_length {α : Type} (gt : α → α → Bool) (mem : List α) (m : List Int)
    (hm : m.length = mem.length) :
    ((sortWithMap gt mem (some m)).1).length = mem.length := by
  have hp := sortWithMap_fst_perm gt mem (some m) (fun m' hm' => by
    obtain rfl : m = m' := by injection hm'
    exact hm)
  exact hp.length_eq

theorem getD_map_name (l : List H5T_cmemb_t) (k : Nat) (hk : k < l.length)
    (d : H5T_cmemb_t) :
    (l.map H5T_cmemb_t.name).getD k [] = (l.getD k d).name := by
  rw [List.getD_eq_getElem _ _ (by simpa using hk), List.getElem_map,
    List.getD_eq_getElem _ _ hk]

theorem getD_map_fst (l : List (List Nat × List Nat)) (k : Nat) (hk : k < l.length)
    (d : List Nat × List Nat) :
    (l.map Prod.fst).getD k [] = (l.getD k d).1 := by
  rw [List.getD_eq_getElem _ _ (by simpa using hk), List.getElem_map,
    List.getD_eq_getElem _ _ hk]

theorem get_zip_fst {β : Type} (l1 : List (List Nat)) (l2 : List β) (j : Nat)
    (hj : j < (l1.zip l2).length) (hj1 : j < l1.length) :
    ((l1.zip l2).get ⟨j, hj⟩).1 = l1.getD j [] := by
  rw [List.get_eq_getElem, List.getElem_zip, List.getD_eq_getElem _ _ hj1]

theorem sortWithMap_idMap_spec {α : Type} (gt : α → α → Bool) (mem : List α) (d : α)
    (k : Nat) (hk : k < mem.length) :
    ∃ j : Nat, ∃ hj : j < mem.length,
      (((sortWithMap gt mem (some (idMap mem.length))).2).getD []).getD k 0 = (j : Int) ∧
      ((sortWithMap gt mem (some (idMap mem.length))).1).getD k d = mem.get ⟨j, hj⟩ := by
  have hid : (idMap mem.length).length = mem.length := idMap_length _
  have hzl : (mem.zip (idMap mem.length)).length = mem.length := by
    rw [List.length_zip]
    omega
  have hperm : (bubbleSort gt (mem.zip (idMap mem.length))).Perm
      (mem.zip (idMap mem.length)) := bubbleSort_perm gt _
  have hLlen : (bubbleSort gt (mem.zip (idMap mem.length))).length = mem.length := by
    rw [hperm.length_eq]
    omega
  have hkL : k < (bubbleSort gt (mem.zip (idMap mem.length))).length := by omega
  have hmem : (bubbleSort gt (mem.zip (idMap mem.length))).get ⟨k, hkL⟩ ∈
      mem.zip (idMap mem.length) :=
    hperm.mem_iff.1 (List.get_mem _ k hkL)
  obtain ⟨n, hn⟩ := List.get_of_mem hmem
  have hjlt : (n : Nat) < mem.length := by
    have h2 := n.isLt
    omega
  refine ⟨n, hjlt, ?_, ?_⟩
  · show ((bubbleSort gt (mem.zip (idMap mem.length))).map Prod.snd).getD k 0 = _
    rw [List.getD_eq_getElem _ _ (by simpa using hkL), List.getElem_map]
    have hLk : (bubbleSort gt (mem.zip (idMap mem.length)))[k] =
        (bubbleSort gt (mem.zip (idMap mem.length))).get ⟨k, hkL⟩ := rfl
    rw [hLk, ← hn, List.get_eq_getElem, List.getElem_zip]
    simp [idMap]
  · show ((bubbleSort gt (mem.zip (idMap mem.length))).map Prod.fst).getD k d = _
    rw [List.getD_eq_getElem _ _ (by simpa using hkL), List.getElem_map]
    have hLk : (bubbleSort gt (mem.zip (idMap mem.length)))[k] =
        (bubbleSort gt (mem.zip (idMap mem.length))).get ⟨k, hkL⟩ := rfl
    rw [hLk, ← hn, List.get_eq_getElem, List.getElem_zip]
    rfl

theorem compnd_sort_map_spec (gt : H5T_cmemb_t → H5T_cmemb_t → Bool) (c : H5T_compnd_t)
    (dt' : H5T_t) (map' : List Int) (sz : Nat) (tag : H5T_sort_t)
    (h1 : dt' = ⟨sz, .compnd { memb := (sortWithMap gt c.memb (some (idMap c.memb.length))).1,
                               sorted := tag }⟩)
    (h2 : (sortWithMap gt c.memb (some (idMap c.memb.length))).2 = some map')
    (k : Nat) (hk : k < c.memb.length) :
    ∃ j : Nat, j < c.memb.length ∧ map'.getD k 0 = (j : Int) ∧
      (memberNames dt').getD k [] = (c.memb.map H5T_cmemb_t.name).getD j [] := by
  obtain ⟨j, hj, hmap, hget⟩ := sortWithMap_idMap_spec gt c.memb ⟨[], 0⟩ k hk
  rw [h2] at hmap
  refine ⟨j, hj, by simpa using hmap, ?_⟩
  subst h1
  have hSlen : ((sortWithMap gt c.memb (some (idMap c.memb.length))).1).length =
      c.memb.length :=
    sortWithMap_fst_length gt c.memb _ (idMap_length _)
  simp only [memberNames]
  rw [getD_map_name _ k (by omega) ⟨[], 0⟩, hget, getD_map_name _ j hj ⟨[], 0⟩]
  congr 1
  rw [List.getD_eq_getElem _ _ hj]
  rfl

theorem enumer_sort_map_spec (gt : (List Nat × List Nat) → (List Nat × List Nat) → Bool)
    (e : H5T_enum_t) (dt' : H5T_t) (map' : List Int) (sz : Nat) (tag : H5T_sort_t)
    (hnv : e.name.length = e.value.length)
    (h1 : dt' = ⟨sz, .enumer
        { name := ((sortWithMap gt (e.name.zip e.value)
            (some (idMap (e.name.zip e.value).length))).1).map Prod.fst,
          value := ((sortWithMap gt (e.name.zip e.value)
            (some (idMap (e.name.zip e.value).length))).1).map Prod.snd,
          sorted := tag }⟩)
    (h2 : (sortWithMap gt (e.name.zip e.value)
        (some (idMap (e.name.zip e.value).length))).2 = some map')
    (k : Nat) (hk : k < e.name.length) :
    ∃ j : Nat, j < e.name.length ∧ map'.getD k 0 = (j : Int) ∧
      (memberNames dt').getD k [] = e.name.getD j [] := by
  have hzl : (e.name.zip e.value).length = e.name.length := by
    rw [List.length_zip]
    omega
  obtain ⟨j, hj, hmap, hget⟩ :=
    sortWithMap_idMap_spec gt (e.name.zip e.value) ([], []) k (by omega)
  rw [h2] at hmap
  refine ⟨j, by omega, by simpa using hmap, ?_⟩
  subst h1
  have hSlen : ((sortWithMap gt (e.name.zip e.value)
      (some (idMap (e.name.zip e.value).length))).1).length =
      (e.name.zip e.value).length :=
    sortWithMap_fst_length gt _ _ (idMap_length _)
  simp only [memberNames]
  rw [getD_map_fst _ k (by omega) ([], []), hget]
  exact get_zip_fst e.name e.value j hj (by omega)

/-- C2: on a record or enum descriptor with the caller map initialized
to the identity permutation 0..n-1, each sort returns a map such that
the member now at any final position k carries the name that was at
index map[k] before the call; and on scenario A the record (b, 8),
(a, 0), (c, 4) sorts by position to (a, 0), (c, 4), (b, 8) with the map
becoming [1, 2, 0]. -/
theorem C2_map_tracks_origin (dt : H5T_t) (hk0 : dt.u ≠ .other) (hlen : wfLen dt) :
    (∀ dt' map',
      H5T_sort_value dt (some (idMap (memberNames dt).length)) = (none, dt', some map') →
      ∀ k : Nat, k < (memberNames dt).length →
        ∃ j : Nat, j < (memberNames dt).length ∧ map'.getD k 0 = (j : Int) ∧
          (memberNames dt').getD k [] = (memberNames dt).getD j []) ∧
    (∀ dt' map',
      H5T_sort_name dt (some (idMap (memberNames dt).length)) = (none, dt', some map') →
      ∀ k : Nat, k < (memberNames dt).length →
        ∃ j : Nat, j < (memberNames dt).length ∧ map'.getD k 0 = (j : Int) ∧
          (memberNames dt').getD k [] = (memberNames dt).getD j []) ∧
    H5T_sort_value dtA (some (idMap 3)) = (none, dtAv, some [1, 2, 0]) := by
  obtain ⟨sz, u⟩ := dt
  cases u with
  | compnd c =>
    refine ⟨?_, ?_, by decide⟩
    · intro dt' map' h k hkn
      simp only [memberNames, List.length_map] at h hkn ⊢
      rw [H5T_sort_value_compnd_eq] at h
      by_cases hs : c.sorted = .SORT_VALUE
      · rw [if_pos hs] at h
        simp only [Prod.mk.injEq] at h
        obtain ⟨-, h1, h2⟩ := h
        subst h1
        have h3 : idMap c.memb.length = map' := by injection h2
        subst h3
        exact ⟨k, hkn, idMap_getD _ _ hkn, by simp [memberNames]⟩
      · rw [if_neg hs] at h
        simp only [Prod.mk.injEq] at h
        obtain ⟨-, h1, h2⟩ := h
        exact compnd_sort_map_spec cmembValueGt c dt' map' sz _ h1.symm h2 k hkn
    · intro dt' map' h k hkn
      simp only [memberNames, List.length_map] at h hkn ⊢
      rw [H5T_sort_name_compnd_eq] at h
      by_cases hs : c.sorted = .SORT_NAME
      · rw [if_pos hs] at h
        simp only [Prod.mk.injEq] at h
        obtain ⟨-, h1, h2⟩ := h
        subst h1
        have h3 : idMap c.memb.length = map' := by injection h2
        subst h3
        exact ⟨k, hkn, idMap_getD _ _ hkn, by simp [memberNames]⟩
      · rw [if_neg hs] at h
        simp only [Prod.mk.injEq] at h
        obtain ⟨-, h1, h2⟩ := h
        exact compnd_sort_map_spec cmembNameGt c dt' map' sz _ h1.symm h2 k hkn
  | enumer e =>
    have hnv : e.name.length = e.value.length := hlen
    have hzl : (e.name.zip e.value).length = e.name.length := by
      rw [List.length_zip]
      omega
    refine ⟨?_, ?_, by decide⟩
    · intro dt' map' h k hkn
      simp only [memberNames] at h hkn ⊢
      rw [H5T_sort_value_enumer_eq] at h
      by_cases hs : e.sorted = .SORT_VALUE
      · rw [if_pos hs] at h
        simp only [Prod.mk.injEq] at h
        obtain ⟨-, h1, h2⟩ := h
        subst h1
        have h3 : idMap e.name.length = map' := by injection h2
        subst h3
        exact ⟨k, hkn, idMap_getD _ _ hkn, by simp [memberNames]⟩
      · rw [if_neg hs] at h
        simp only [Prod.mk.injEq] at h
        obtain ⟨-, h1, h2⟩ := h
        rw [show e.name.length = (e.name.zip e.value).length from hzl.symm] at h1 h2
        exact enumer_sort_map_spec enumValueGt e dt' map' sz _ hnv h1.symm h2 k hkn
    · intro dt' map' h k hkn
      simp only [memberNames] at h hkn ⊢
      rw [H5T_sort_name_enumer_eq] at h
      by_cases hs : e.sorted = .SORT_NAME
      · rw [if_pos hs] at h
        simp only [Prod.mk.injEq] at h
        obtain ⟨-, h1, h2⟩ := h
        subst h1
        have h3 : idMap e.name.length = map' := by injection h2
        subst h3
        exact ⟨k, hkn, idMap_getD _ _ hkn, by simp [memberNames]⟩
      · rw [if_neg hs] at h
        simp only [Prod.mk.injEq] at h
        obtain ⟨-, h1, h2⟩ := h
        rw [show e.name.length = (e.name.zip e.value).length from hzl.symm] at h1 h2
        exact enumer_sort_map_spec enumNameGt e dt' map' sz _ hnv h1.symm h2 k hkn
  | other => exact absurd rfl hk0

/-! ### Concrete witnesses instantiating the claim theorems -/

/-- Witness for C1 at the scenario-A record descriptor. -/
theorem C1_witness :
    offsetsSorted (membOf (H5T_sort_value dtA none).2.1) ∧
    namesSorted (memberNames (H5T_sort_name dtA none).2.1) := by
  have hwf : wfDescr dtA := by
    constructor <;> (intro h; cases h)
  exact ⟨(C1_order_invariant dtA none hwf).1 _ rfl,
    (C1_order_invariant dtA none hwf).2 (by decide)⟩

/-- Witness for C2 at the scenario-A record descriptor with the
identity map. -/
theorem C2_witness :
    (∃ j : Nat, j < (memberNames dtA).length ∧
      ([1, 2, 0] : List Int).getD 0 0 = (j : Int) ∧
      (memberNames dtAv).getD 0 [] = (memberNames dtA).getD j []) ∧
    H5T_sort_value dtA (some (idMap 3)) = (none, dtAv, some [1, 2, 0]) := by
  have h := C2_map_tracks_origin dtA (by decide) trivial
  exact ⟨h.1 dtAv [1, 2, 0] (by decide) 0 (by decide), h.2.2⟩

/-- Witness for C3 at the already value-sorted scenario-A descriptor. -/
theorem C3_witness : H5T_sort_value dtAv none = (none, dtAv, none) :=
  (C3_short_circuit_idempotent dtAv none none).1 rfl

/-- Witness for C4 at a non-composite descriptor. -/
theorem C4_witness :
    H5T_sort_value dtOther none = (some .UnsupportedKind, dtOther, none) ∧
    H5T_sort_name dtOther none = (some .UnsupportedKind, dtOther, none) :=
  (C4_unsupported_kind dtOther none).1 rfl

/-- Witness for C5 at the scenario-B values: RED (2) compares greater
than GREEN (1) with the first differing byte at position 3. -/
theorem C5_witness :
    enumValueGt ([82, 69, 68], [0, 0, 0, 2]) ([71, 82, 69, 69, 78], [0, 0, 0, 1]) = true :=
  (C5_enum_value_comparison.1 _ _ (by decide)).mpr ⟨3, by decide, by decide, by decide⟩

/-- Witness for C6 at the scenario-A descriptor and index 5. -/
theorem C6_witness :
    (H5T_get_member_name dtA 5 = .error .InvalidIndex ↔
      ((5 : Int) < 0 ∨ ((memberNames dtA).length : Int) ≤ 5)) ∧
    H5T_get_member_name dtA (-1) = .error .InvalidIndex := by
  have h := C6_invalid_index dtA 5 [] (by decide)
  exact ⟨h.1, h.2.1⟩

/-- Witness for C7 at the scenario-A descriptor and index 1. -/
theorem C7_witness : H5Tget_member_index dtA [97] = .ok 1 :=
  C7_lookup_consistency dtA 1 [97] (by decide) rfl

/-- Witness for C8 at the scenario-A descriptor and the name c. -/
theorem C8_witness :
    ((2 : Int) = -1 ∧ [99] ∉ memberNames dtA) ∨
    (0 ≤ (2 : Int) ∧ (2 : Int).toNat < (memberNames dtA).length ∧
      (memberNames dtA).getD (2 : Int).toNat [] = [99] ∧
      ∀ j : Nat, j < (2 : Int).toNat → (memberNames dtA).getD j [] ≠ [99]) :=
  C8_first_match dtA [99] 2 rfl

/-- Witness for C9 at the scenario-A record descriptor. -/
theorem C9_witness :
    ∃ c', (H5T_sort_value dtA none).2.1.u = .compnd c' ∧
      c'.memb.Perm [⟨[98], 8⟩, ⟨[97], 0⟩, ⟨[99], 4⟩] ∧
      c'.memb.length = ([⟨[98], 8⟩, ⟨[97], 0⟩, ⟨[99], 4⟩] : List H5T_cmemb_t).length := by
  have h := C9_permutation_preserved dtA none trivial (by intro m hm; simp at hm)
  exact h.1 ⟨[⟨[98], 8⟩, ⟨[97], 0⟩, ⟨[99], 4⟩], .SORT_NONE⟩ rfl

/-- Witness for C10: the fuel-counted loop with 3 units of fuel at outer
index 2 on the scenario-A members, and success of the value sort there. -/
theorem C10_witness :
    bubbleLoopFuel cmembValueGt 3 2 [(⟨[98], 8⟩, 0), (⟨[97], 0⟩, 1), (⟨[99], 4⟩, 2)] =
      some (bubbleSortAux cmembValueGt 2 [(⟨[98], 8⟩, 0), (⟨[97], 0⟩, 1), (⟨[99], 4⟩, 2)]) ∧
    (H5T_sort_value dtA none).1 = none := by
  have h := C10_termination
  exact ⟨h.1 H5T_cmemb_t cmembValueGt 2 _, (h.2 dtA none (by decide)).1⟩
